import Mathlib

/-!
Verification of the 1D cellular-automata engine in `automata.c`
(gfxprim/automata).  Machine words (`uint64_t`) are modelled as `Nat`
with explicit reduction `% 2 ^ 64` wherever the C code can overflow;
C `int` values are likewise modelled as `Nat` bit patterns with a
32-bit complement.  Rows are lists of words, the rule table is a list,
and the step/run functions mirror the C control flow.
-/

namespace Automata

/-- All-ones 64-bit word, C's `~0UL`. -/
def MASK64 : Nat := 2 ^ 64 - 1

/-- C macro `BIT_TO_MAX(b, n) = ((b >> n) & 1) * ~0UL`
(if bit `n` of `b` is 1 then all 64 bits set, else 0). -/
def bit_to_max (b n : Nat) : Nat := ((b >>> n) &&& 1) * MASK64

/-- Bitwise complement `~x` on a 64-bit word (bit pattern of `~x` for
`x < 2^64`). -/
def not64 (x : Nat) : Nat := MASK64 ^^^ x

/-- `automata.c:85`: `l = (c >> 1) ^ (c_prev << 63)` (uint64 arithmetic,
the shift result is reduced mod `2^64`). -/
def ca1d_l (c_prev c : Nat) : Nat := (c >>> 1) ^^^ ((c_prev <<< 63) % 2 ^ 64)

/-- `automata.c:86`: `r = (c << 1) ^ (c_next >> 63)` (uint64 arithmetic). -/
def ca1d_r (c c_next : Nat) : Nat := ((c <<< 1) % 2 ^ 64) ^^^ (c_next >>> 63)

/-- `automata.c:78-100`, `ca1d_rule_apply`: apply rule `rule` to the 64-bit
segment `c` with left/right neighbour words `c_prev`/`c_next` and carry word
`c_prev_step`; the loop over the 8 neighbourhood patterns accumulates
`active & ~(left ^ l) & ~(center ^ c) & ~(right ^ r)` by bitwise or, and the
result is xored with the carry word. -/
def ca1d_rule_apply (rule c_prev c c_next c_prev_step : Nat) : Nat :=
  let l := ca1d_l c_prev c
  let r := ca1d_r c c_next
  let c_next_step :=
    (List.range 8).foldl (fun acc i =>
      acc ||| (bit_to_max rule i &&& not64 (bit_to_max i 2 ^^^ l)
        &&& not64 (bit_to_max i 1 ^^^ c) &&& not64 (bit_to_max i 0 ^^^ r))) 0
  c_next_step ^^^ c_prev_step

/-! ## Population count (`automata.c:56-74`) -/

/-- The six "Binary Magic Numbers" masks `B[0]..B[5]` of `pop_count`. -/
def popB : List Nat :=
  [0x5555555555555555, 0x3333333333333333, 0x0f0f0f0f0f0f0f0f,
   0x00ff00ff00ff00ff, 0x0000ffff0000ffff, 0x00000000ffffffff]

/-- One iteration of the `pop_count` loop:
`ret = ((ret >> (1 << i)) & B[i]) + (ret & B[i])` (uint64 addition). -/
def pop_step (ret i : Nat) : Nat :=
  (((ret >>> (1 <<< i)) &&& popB.getD i 0) + (ret &&& popB.getD i 0)) % 2 ^ 64

/-- `automata.c:56-74`, `pop_count`: six mask-and-add rounds, result returned
as `uint8_t`. -/
def pop_count (bit_field : Nat) : Nat :=
  ((List.range 6).foldl pop_step bit_field) % 2 ^ 8

/-! ## Meta rule engine (`automata.c:133-155`)

The meta-rule loop works on C `int` values; all the values involved are
non-negative and the bit pattern of `~x` for such a 32-bit `int` is
`0xFFFFFFFF ^^^ x`. -/

/-- Bitwise complement `~x` of a (non-negative) 32-bit C `int`. -/
def notI (x : Nat) : Nat := 0xFFFFFFFF ^^^ x

/-- The `c_next_step` accumulation loop of `ca1d_meta_rule_apply`
(`automata.c:144-152`): for each pattern `i`,
`c_next_step |= active & ~(left ^ pl) & ~(center ^ pc) & ~(right ^ pr)`. -/
def meta_fold (rule pl pc pr : Nat) : Nat :=
  (List.range 8).foldl (fun acc i =>
    acc ||| (((rule >>> i) &&& 1) &&& notI (((i >>> 2) &&& 1) ^^^ pl)
      &&& notI (((i >>> 1) &&& 1) ^^^ pc) &&& notI ((i &&& 1) ^^^ pr))) 0

/-- `automata.c:133-155`, `ca1d_meta_rule_apply`: classify the three words by
`pop_count(w) > 32`, run the 8-pattern loop on the density context, and return
`rules[c_next_step]`. -/
def ca1d_meta_rule_apply (rules : List Nat) (rule c_prev c c_next : Nat) : Nat :=
  let pl := if 32 < pop_count c_prev then 1 else 0
  let pc := if 32 < pop_count c then 1 else 0
  let pr := if 32 < pop_count c_next then 1 else 0
  rules.getD (meta_fold rule pl pc pr) 0

/-! ## Row application (`automata.c:103-131` and `automata.c:157-187`)

A row is a list of `width` words.  The C code writes `next[0]` specially
(toroidal left neighbour `cur[width-1]`, right neighbour
`cur[GP_MIN(1, width-1)]`), then words `1 .. width-2` in a loop, then — when
`width >= 2` — the last word with right neighbour `cur[0]`. -/

/-- `automata.c:103-131`, `ca1d_rule_apply_row`: word `i` of the next row;
words are read with `getD` (index `i` runs over `0 .. width-1`). -/
def ca1d_rule_apply_row (width rule_n : Nat) (rules : List Nat)
    (prev cur : List Nat) : List Nat :=
  (List.range width).map (fun i =>
    if i = 0 then
      ca1d_rule_apply (rules.getD 0 0) (cur.getD (width - 1) 0) (cur.getD 0 0)
        (cur.getD (min 1 (width - 1)) 0) (prev.getD 0 0)
    else if i < width - 1 then
      ca1d_rule_apply (rules.getD (i % rule_n) 0) (cur.getD (i - 1) 0)
        (cur.getD i 0) (cur.getD (i + 1) 0) (prev.getD i 0)
    else
      ca1d_rule_apply (rules.getD (i % rule_n) 0) (cur.getD (i - 1) 0)
        (cur.getD i 0) (cur.getD 0 0) (prev.getD i 0))

/-- `automata.c:157-187`, `ca1d_meta_rule_apply_row`: same traversal, but the
rule for each word is chosen by `ca1d_meta_rule_apply` from the word's
neighbourhood. -/
def ca1d_meta_rule_apply_row (width meta_rule : Nat) (rules : List Nat)
    (prev cur : List Nat) : List Nat :=
  (List.range width).map (fun i =>
    if i = 0 then
      let cp := cur.getD (width - 1) 0
      let c := cur.getD 0 0
      let cn := cur.getD (min 1 (width - 1)) 0
      ca1d_rule_apply (ca1d_meta_rule_apply rules meta_rule cp c cn) cp c cn
        (prev.getD 0 0)
    else if i < width - 1 then
      let cp := cur.getD (i - 1) 0
      let c := cur.getD i 0
      let cn := cur.getD (i + 1) 0
      ca1d_rule_apply (ca1d_meta_rule_apply rules meta_rule cp c cn) cp c cn
        (prev.getD i 0)
    else
      let cp := cur.getD (i - 1) 0
      let c := cur.getD i 0
      let cn := cur.getD 0 0
      ca1d_rule_apply (ca1d_meta_rule_apply rules meta_rule cp c cn) cp c cn
        (prev.getD i 0))

/-! ## The run loop (`automata.c:190-213`) -/

/-- The row update performed by one iteration of the `ca1d_run` loop
(`automata.c:200-203`): the meta path when `meta_rule` is nonzero, the plain
path otherwise. -/
def ca1d_step (width rule_n meta_rule : Nat) (rules : List Nat)
    (prev cur : List Nat) : List Nat :=
  if meta_rule ≠ 0 then ca1d_meta_rule_apply_row width meta_rule rules prev cur
  else ca1d_rule_apply_row width rule_n rules prev cur

/-- The all-zero row (`zeroes` in `automata.c`). -/
def zeroRow (width : Nat) : List Nat := List.replicate width 0

/-- The iterations of the `ca1d_run` loop after row 0: each iteration
computes `next` from `(prev, cur)` and then advances with
`prev = reversible ? cur : zeroes; cur = next`. -/
def ca1d_run_from (width rule_n meta_rule : Nat) (rules : List Nat)
    (reversible : Bool) : Nat → List Nat → List Nat → List (List Nat)
  | 0, _, _ => []
  | n + 1, prev, cur =>
    let next := ca1d_step width rule_n meta_rule rules prev cur
    next :: ca1d_run_from width rule_n meta_rule rules reversible n
      (if reversible then cur else zeroRow width) next

/-- `automata.c:190-213`, `ca1d_run`: row 0 is the initial row, and the loop
produces rows `1 .. height-1` starting from `prev = zeroes`, `cur = init`. -/
def ca1d_run (width height rule_n meta_rule : Nat) (rules : List Nat)
    (reversible : Bool) (init : List Nat) : List (List Nat) :=
  init :: ca1d_run_from width rule_n meta_rule rules reversible (height - 1)
    (zeroRow width) init

/-- The row recurrence realized by the `ca1d_run` loop: row `0` is `init`,
row `1` is computed with the zero carry row, and row `g+2` is computed from
row `g+1` with carry row `g` when `reversible` and the zero row otherwise. -/
def ca1d_row (width rule_n meta_rule : Nat) (rules : List Nat)
    (reversible : Bool) (init : List Nat) : Nat → List Nat
  | 0 => init
  | 1 => ca1d_step width rule_n meta_rule rules (zeroRow width) init
  | g + 2 =>
    ca1d_step width rule_n meta_rule rules
      (if reversible then ca1d_row width rule_n meta_rule rules reversible init g
       else zeroRow width)
      (ca1d_row width rule_n meta_rule rules reversible init (g + 1))

/-! ## The rule-string parser (`automata.c:307-340`)

`rule_acc` and `rule_indx` are `uint8_t` (arithmetic mod 256); `rules` is the
256-entry global table.  The loop either consumes the whole string or stops
early: on a digit with `rule_acc > 25` it jumps to `out` (committing the
accumulator and updating `rule_n`), and on any character other than a digit,
`','`, `';'` or `' '` it returns at once, leaving `rule_n` and the pending
accumulator uncommitted.  The result is the updated `rules` table together
with `some rule_n` when `out` was reached and `none` on the early `return`. -/

/-- Digit test for `case '0' ... '9'`. -/
def isDigitC (ch : Char) : Prop := '0'.toNat ≤ ch.toNat ∧ ch.toNat ≤ '9'.toNat

instance (ch : Char) : Decidable (isDigitC ch) := by
  unfold isDigitC; infer_instance

/-- The `while (*c)` loop of `parse_rule_nums`, with state
(`rules` table, `rule_acc`, `rule_indx`). -/
def parse_loop : List Char → List Nat → Nat → Nat → List Nat × Option Nat
  | [], rules, acc, indx => (rules.set indx acc, some ((indx + 1) % 2 ^ 8))
  | ch :: rest, rules, acc, indx =>
    if isDigitC ch then
      if 25 < acc then (rules.set indx acc, some ((indx + 1) % 2 ^ 8))
      else parse_loop rest rules ((acc * 10 + (ch.toNat - '0'.toNat)) % 2 ^ 8) indx
    else if ch = ',' ∨ ch = ';' then
      parse_loop rest (rules.set indx acc) 0 ((indx + 1) % 2 ^ 8)
    else if ch = ' ' then
      parse_loop rest rules acc indx
    else
      (rules, none)

/-- `automata.c:307-340`, `parse_rule_nums`: run the loop on the string from
`rule_acc = 0`, `rule_indx = 0`; on the `return` path the previous `rule_n`
is kept. -/
def parse_rule_nums (s : List Char) (rules : List Nat) (rule_n : Nat) :
    List Nat × Nat :=
  match parse_loop s rules 0 0 with
  | (rules', some n) => (rules', n)
  | (rules', none) => (rules', rule_n)

/-! ## Specification-side definitions

These definitions come from the spec's wording (neighbourhood patterns, bit
positions in both conventions, the exact population count as a sum of bits,
the field-list view of a word used to verify the magic-numbers loop, and the
scanner describing how far the rule-string parser reads). -/

/-- The 3-bit neighbourhood pattern read off at bit `k`
(MSB = left, middle = centre, LSB = right), with the left/right bits taken
from the words `l` and `r` assembled by `ca1d_rule_apply`. -/
def nbhd (c_prev c c_next k : Nat) : Nat :=
  4 * ((ca1d_l c_prev c).testBit k).toNat + 2 * (c.testBit k).toNat
    + ((ca1d_r c c_next).testBit k).toNat

/-- Bit `k` of a word in the display convention of spec §3
(bit 0 = most-significant). -/
def dispBit (w k : Nat) : Bool := w.testBit (63 - k)

/-- The claim C5 as stated: positions use the `bit 0 = most-significant`
convention; the left bit at position `k` is bit `k+1` of the centre word with
bit 0 of the left word as carry at the most-significant position, and the
right bit at position `k` is bit `k-1` of the centre word with the
least-significant bit of the right word as carry at the least-significant
position. -/
def neighborhood_msb0_claim : Prop :=
  ∀ cp c cn : Nat, cp < 2 ^ 64 → c < 2 ^ 64 → cn < 2 ^ 64 → ∀ k, k < 64 →
    (k = 0 → dispBit (ca1d_l cp c) k = dispBit cp 0) ∧
    (k ≠ 0 → k + 1 ≤ 63 → dispBit (ca1d_l cp c) k = dispBit c (k + 1)) ∧
    (k = 63 → dispBit (ca1d_r c cn) k = dispBit cn 63) ∧
    (k ≠ 63 → 1 ≤ k → dispBit (ca1d_r c cn) k = dispBit c (k - 1))

/-- Value of a word made of fields of `w` bits each, least significant
field first. -/
def fromFields (w : Nat) : List Nat → Nat
  | [] => 0
  | f :: fs => f + 2 ^ w * fromFields w fs

/-- Sum adjacent pairs of fields. -/
def pairSums : List Nat → List Nat
  | a :: b :: rest => (a + b) :: pairSums rest
  | fs => fs

/-- Every other field, starting with the first. -/
def everyOther : List Nat → List Nat
  | a :: _ :: rest => a :: everyOther rest
  | fs => fs

/-- The mask with the low `w` bits of each `2*w`-bit field set, repeated
`m` times (the shape of the magic masks `B[i]`). -/
def fieldMask (w m : Nat) : Nat := fromFields (2 * w) (List.replicate m (2 ^ w - 1))

/-- The 64 bits of a word as one-bit fields, least significant first. -/
def bitsList (x : Nat) : List Nat := (List.range 64).map (fun i => (x.testBit i).toNat)

/-- The number of set bits of a 64-bit word (the specification-level
population count). -/
def oneBits (x : Nat) : Nat := (bitsList x).sum

/-- The specification-side scanner for the rule-string parser: it walks the
string exactly as far as `parse_rule_nums` does, stopping after the first
character that is not a digit, comma, semicolon or space (that character is
kept, since hitting it is what makes the parser return without committing),
and stopping before a digit that arrives while the accumulator already
exceeds 25. -/
def consumedInput (acc : Nat) : List Char → List Char
  | [] => []
  | ch :: rest =>
    if isDigitC ch then
      if 25 < acc then []
      else ch :: consumedInput ((acc * 10 + (ch.toNat - '0'.toNat)) % 2 ^ 8) rest
    else if ch = ',' ∨ ch = ';' then ch :: consumedInput 0 rest
    else if ch = ' ' then ch :: consumedInput acc rest
    else [ch]

/-! ## Bit-level helper lemmas -/

theorem bit_to_max_testBit (b n k : Nat) :
    (bit_to_max b n).testBit k = (b.testBit n && decide (k < 64)) := by
  have hb : b.testBit n = decide ((b >>> n) % 2 = 1) := by
    rw [Nat.testBit_to_div_mod, Nat.shiftRight_eq_div_pow]
  unfold bit_to_max MASK64
  rw [Nat.and_one_is_mod, hb]
  rcases Nat.mod_two_eq_zero_or_one (b >>> n) with h | h <;> rw [h]
  · simp
  · rw [Nat.one_mul, Nat.testBit_two_pow_sub_one]
    simp

theorem not64_testBit (x k : Nat) (hk : k < 64) :
    (not64 x).testBit k = !x.testBit k := by
  unfold not64 MASK64
  rw [Nat.testBit_xor, Nat.testBit_two_pow_sub_one]
  simp [hk]

/-- Bits of the assembled left-neighbour word `l = (c >> 1) ^ (c_prev << 63)`:
bit `k` is bit `k+1` of the centre word except at the top bit, which is bit 0
of the left word. -/
theorem ca1d_l_testBit (cp c : Nat) (hc : c < 2 ^ 64) (k : Nat) (hk : k < 64) :
    (ca1d_l cp c).testBit k = if k = 63 then cp.testBit 0 else c.testBit (k + 1) := by
  unfold ca1d_l
  rw [Nat.testBit_xor, Nat.testBit_shiftRight, Nat.testBit_mod_two_pow,
    Nat.testBit_shiftLeft]
  rcases Nat.eq_or_lt_of_le (Nat.le_of_lt_succ hk) with h63 | hlt
  · have hc64 : c.testBit 64 = false := Nat.testBit_lt_two_pow hc
    subst h63
    simp [hc64]
  · have h1 : ¬ (63 ≤ k) := by omega
    simp [hk, h1, Nat.add_comm 1 k, Nat.ne_of_lt hlt]

/-- Bits of the assembled right-neighbour word `r = (c << 1) ^ (c_next >> 63)`:
bit `k` is bit `k-1` of the centre word except at bit 0, which is bit 63
(the most-significant bit) of the right word. -/
theorem ca1d_r_testBit (c cn : Nat) (hcn : cn < 2 ^ 64) (k : Nat) (hk : k < 64) :
    (ca1d_r c cn).testBit k = if k = 0 then cn.testBit 63 else c.testBit (k - 1) := by
  unfold ca1d_r
  rw [Nat.testBit_xor, Nat.testBit_mod_two_pow, Nat.testBit_shiftLeft,
    Nat.testBit_shiftRight]
  rcases Nat.eq_zero_or_pos k with h0 | hpos
  · subst h0
    simp
  · have hhi : cn.testBit (63 + k) = false := by
      apply Nat.testBit_lt_two_pow
      calc cn < 2 ^ 64 := hcn
        _ ≤ 2 ^ (63 + k) := Nat.pow_le_pow_right (by omega) (by omega)
    have h1 : 1 ≤ k := hpos
    simp [hk, hhi, h1, Nat.ne_of_gt hpos]

theorem rule_fold_testBit (rule l c r : Nat) (k : Nat) (hk : k < 64) :
    (((List.range 8).foldl (fun acc i =>
      acc ||| (bit_to_max rule i &&& not64 (bit_to_max i 2 ^^^ l)
        &&& not64 (bit_to_max i 1 ^^^ c) &&& not64 (bit_to_max i 0 ^^^ r))) 0).testBit k)
    = rule.testBit (4 * (l.testBit k).toNat + 2 * (c.testBit k).toNat
        + (r.testBit k).toNat) := by
  have hrange : List.range 8 = [0, 1, 2, 3, 4, 5, 6, 7] := rfl
  rw [hrange]
  simp only [List.foldl_cons, List.foldl_nil]
  cases hl : l.testBit k <;> cases hc : c.testBit k <;> cases hr : r.testBit k <;>
    simp [Nat.testBit_or, Nat.testBit_and, not64_testBit _ _ hk,
      bit_to_max_testBit, hk, hl, hc, hr] <;>
    simp [Nat.testBit_to_div_mod]

/-- C1: the word returned by `ca1d_rule_apply` has, at every bit position
`k < 64`, the bit `rule[i]` of the rule byte, where `i` is the 3-bit
neighbourhood pattern (MSB = left, middle = centre, LSB = right) assembled at
position `k`, xored with the corresponding bit of the carry word; the eight
masked per-pattern contributions combined by bitwise or produce exactly the
rule-lookup bit, and the carry xor is applied before returning. -/
theorem ca1d_rule_apply_bit_spec (rule cp c cn carry : Nat)
    (hrule : rule < 2 ^ 8) (hcp : cp < 2 ^ 64) (hc : c < 2 ^ 64)
    (hcn : cn < 2 ^ 64) (hcarry : carry < 2 ^ 64) (k : Nat) (hk : k < 64) :
    (ca1d_rule_apply rule cp c cn carry).testBit k =
      ((rule.testBit (nbhd cp c cn k)).xor (carry.testBit k)) := by
  unfold ca1d_rule_apply nbhd
  rw [Nat.testBit_xor, rule_fold_testBit _ _ _ _ _ hk]

theorem ca1d_rule_apply_bit_spec_witness :
    (ca1d_rule_apply 110 0 1 0 5).testBit 0 =
      ((Nat.testBit 110 (nbhd 0 1 0 0)).xor (Nat.testBit 5 0)) :=
  ca1d_rule_apply_bit_spec 110 0 1 0 5 (by decide) (by decide) (by decide)
    (by decide) (by decide) 0 (by decide)

/-! ## C5: neighbourhood assembly conventions -/

/-- C5 as stated is false: with `c_next = 2^63` the carry into the
least-significant position is the most-significant bit of `c_next`
(which is set), not its least-significant bit (which is clear).  The same
concrete input also refutes the statement read with `bit 0 =
least-significant` positions. -/
theorem neighborhood_msb0_claim_false : ¬ neighborhood_msb0_claim := by
  intro h
  have hcl := (h 0 0 (2 ^ 63) (by decide) (by decide) (by decide) 63
    (by decide)).2.2.1 rfl
  exact absurd hcl (by decide)

/-- C5 (amended): with bit positions in the `bit 0 = least-significant`
convention, the left bit at position `k` is bit `k+1` of the centre word,
with bit 0 of the left word supplying the carry at the most-significant
position `k = 63`; the right bit at position `k` is bit `k-1` of the centre
word, with bit 63 (the most-significant bit) of the right word supplying the
carry at the least-significant position `k = 0`. -/
theorem ca1d_neighborhood_assembly (cp c cn : Nat)
    (hcp : cp < 2 ^ 64) (hc : c < 2 ^ 64) (hcn : cn < 2 ^ 64)
    (k : Nat) (hk : k < 64) :
    ((ca1d_l cp c).testBit k = if k = 63 then cp.testBit 0 else c.testBit (k + 1)) ∧
    ((ca1d_r c cn).testBit k = if k = 0 then cn.testBit 63 else c.testBit (k - 1)) :=
  ⟨ca1d_l_testBit cp c hc k hk, ca1d_r_testBit c cn hcn k hk⟩

theorem ca1d_neighborhood_assembly_witness :
    ((ca1d_l 1 (2 ^ 5)).testBit 4 = if (4 : Nat) = 63 then Nat.testBit 1 0
        else Nat.testBit (2 ^ 5) 5) ∧
    ((ca1d_r (2 ^ 5) (2 ^ 63)).testBit 4 = if (4 : Nat) = 0 then Nat.testBit (2 ^ 63) 63
        else Nat.testBit (2 ^ 5) 3) :=
  ca1d_neighborhood_assembly 1 (2 ^ 5) (2 ^ 63) (by decide) (by decide)
    (by decide) 4 (by decide)

/-! ## Correctness of `pop_count`

A 64-bit word is viewed as a list of equal-width bit fields, least
significant first.  Each round of the magic-numbers loop merges adjacent
fields by addition; six rounds take the 64 one-bit fields of the input to a
single field holding the number of set bits. -/

theorem fromFields_nil (w : Nat) : fromFields w [] = 0 := rfl

theorem fromFields_cons (w f : Nat) (fs : List Nat) :
    fromFields w (f :: fs) = f + 2 ^ w * fromFields w fs := rfl

theorem fromFields_lt (w : Nat) :
    ∀ fs : List Nat, (∀ f ∈ fs, f < 2 ^ w) → fromFields w fs < 2 ^ (w * fs.length)
  | [], _ => by simp [fromFields_nil]
  | f :: fs, hb => by
    have hf : f < 2 ^ w := hb f (by simp)
    have ih : fromFields w fs < 2 ^ (w * fs.length) :=
      fromFields_lt w fs (fun g hg => hb g (by simp [hg]))
    have h1 : f + 2 ^ w * fromFields w fs < 2 ^ w * (fromFields w fs + 1) := by
      rw [Nat.mul_add, Nat.mul_one]
      omega
    have h2 : 2 ^ w * (fromFields w fs + 1) ≤ 2 ^ w * 2 ^ (w * fs.length) :=
      Nat.mul_le_mul_left _ ih
    have h3 : (2 : Nat) ^ w * 2 ^ (w * fs.length) = 2 ^ (w * (f :: fs).length) := by
      rw [← Nat.pow_add, List.length_cons, Nat.mul_add, Nat.mul_one, Nat.add_comm w]
    rw [fromFields_cons]
    omega

/-- Bitwise and acts field-wise on words split at bit `k`. -/
theorem land_split (k a b c d : Nat) (ha : a < 2 ^ k) (hc : c < 2 ^ k) :
    (a + 2 ^ k * b) &&& (c + 2 ^ k * d) = (a &&& c) + 2 ^ k * (b &&& d) := by
  apply Nat.eq_of_testBit_eq
  intro i
  rw [Nat.testBit_and, Nat.add_comm a, Nat.add_comm c, Nat.add_comm (a &&& c),
    Nat.testBit_mul_pow_two_add b ha i, Nat.testBit_mul_pow_two_add d hc i,
    Nat.testBit_mul_pow_two_add (b &&& d) (Nat.and_lt_two_pow a hc) i]
  by_cases h : i < k <;> simp [h, Nat.testBit_and]

theorem fromFields_cons_shiftRight (w f : Nat) (fs : List Nat) (hf : f < 2 ^ w) :
    fromFields w (f :: fs) >>> w = fromFields w fs := by
  rw [fromFields_cons, Nat.shiftRight_eq_div_pow, Nat.add_comm,
    Nat.mul_add_div (Nat.two_pow_pos w), Nat.div_eq_of_lt hf, Nat.add_zero]

theorem land_fieldMask (w : Nat) :
    ∀ (fs : List Nat) (m : Nat), (∀ f ∈ fs, f < 2 ^ w) → fs.length ≤ 2 * m →
      fromFields w fs &&& fieldMask w m = fromFields (2 * w) (everyOther fs)
  | [], m, _, _ => by simp [fromFields_nil, everyOther]
  | [f], m, hb, hm => by
    simp only [List.length_cons, List.length_nil] at hm
    obtain ⟨m', rfl⟩ : ∃ m', m = m' + 1 := ⟨m - 1, by omega⟩
    have hf : f < 2 ^ w := hb f (by simp)
    have hww : (2 : Nat) ^ w ≤ 2 ^ (2 * w) := Nat.pow_le_pow_right (by omega) (by omega)
    have hmask : fieldMask w (m' + 1) = (2 ^ w - 1) + 2 ^ (2 * w) * fieldMask w m' := by
      simp [fieldMask, List.replicate_succ, fromFields_cons]
    have hsplit := land_split (2 * w) f 0 (2 ^ w - 1) (fieldMask w m')
      (by omega) (by have h0 := Nat.two_pow_pos w; omega)
    have : fromFields w [f] = f + 2 ^ (2 * w) * 0 := by
      simp [fromFields_cons, fromFields_nil]
    rw [this, hmask, hsplit, Nat.and_pow_two_sub_one_eq_mod,
      Nat.mod_eq_of_lt hf]
    simp [everyOther, fromFields_cons, fromFields_nil]
  | f0 :: f1 :: rest, m, hb, hm => by
    simp only [List.length_cons] at hm
    obtain ⟨m', rfl⟩ : ∃ m', m = m' + 1 := ⟨m - 1, by omega⟩
    have hf0 : f0 < 2 ^ w := hb f0 (by simp)
    have hf1 : f1 < 2 ^ w := hb f1 (by simp)
    have hpair : f0 + 2 ^ w * f1 < 2 ^ (2 * w) := by
      have h3 : (2 : Nat) ^ (2 * w) = 2 ^ w * 2 ^ w := by
        rw [two_mul, Nat.pow_add]
      have : f0 + 2 ^ w * f1 < 2 ^ w * (f1 + 1) := by
        rw [Nat.mul_add, Nat.mul_one]; omega
      have h4 : 2 ^ w * (f1 + 1) ≤ 2 ^ w * 2 ^ w := Nat.mul_le_mul_left _ hf1
      omega
    have hassoc : fromFields w (f0 :: f1 :: rest)
        = (f0 + 2 ^ w * f1) + 2 ^ (2 * w) * fromFields w rest := by
      have h3 : (2 : Nat) ^ (2 * w) = 2 ^ w * 2 ^ w := by
        rw [two_mul, Nat.pow_add]
      rw [fromFields_cons, fromFields_cons, h3, Nat.mul_add, Nat.mul_assoc,
        ← Nat.add_assoc]
    have hmask : fieldMask w (m' + 1) = (2 ^ w - 1) + 2 ^ (2 * w) * fieldMask w m' := by
      simp [fieldMask, List.replicate_succ, fromFields_cons]
    have hww : (2 : Nat) ^ w ≤ 2 ^ (2 * w) := Nat.pow_le_pow_right (by omega) (by omega)
    have hsplit := land_split (2 * w) (f0 + 2 ^ w * f1) (fromFields w rest)
      (2 ^ w - 1) (fieldMask w m') hpair
      (by have h0 := Nat.two_pow_pos w; omega)
    have ih : fromFields w rest &&& fieldMask w m' = fromFields (2 * w) (everyOther rest) :=
      land_fieldMask w rest m' (fun g hg => hb g (by simp [hg])) (by omega)
    rw [hassoc, hmask, hsplit, ih, Nat.and_pow_two_sub_one_eq_mod,
      Nat.add_mul_mod_self_left, Nat.mod_eq_of_lt hf0]
    show _ = fromFields (2 * w) (f0 :: everyOther rest)
    rw [fromFields_cons]

theorem fromFields_add (w : Nat) :
    ∀ xs ys : List Nat, xs.length = ys.length →
      fromFields w xs + fromFields w ys = fromFields w (List.zipWith (· + ·) xs ys)
  | [], [], _ => rfl
  | [], y :: ys, h => by simp at h
  | x :: xs, [], h => by simp at h
  | x :: xs, y :: ys, h => by
    have ih := fromFields_add w xs ys (by simpa using h)
    simp only [List.zipWith_cons_cons, fromFields_cons]
    rw [← ih]
    ring

theorem zip_everyOther_pairSums :
    ∀ (fs : List Nat) (m : Nat), fs.length = 2 * m →
      List.zipWith (· + ·) (everyOther fs.tail) (everyOther fs) = pairSums fs
  | [], _, _ => rfl
  | [a], m, h => by simp at h; omega
  | a :: b :: rest, m, h => by
    simp only [List.length_cons] at h
    have ih := zip_everyOther_pairSums rest (m - 1) (by omega)
    cases rest with
    | nil => simp [everyOther, pairSums, Nat.add_comm]
    | cons r0 rest' =>
      show (b + a) :: List.zipWith (· + ·) (everyOther rest') (everyOther (r0 :: rest'))
        = (a + b) :: pairSums (r0 :: rest')
      rw [Nat.add_comm b a]
      exact congrArg _ ih

theorem everyOther_length :
    ∀ fs : List Nat, (everyOther fs).length = (fs.length + 1) / 2
  | [] => rfl
  | [_] => by simp [everyOther]
  | a :: b :: rest => by
    show (a :: everyOther rest).length = _
    simp only [List.length_cons, everyOther_length rest]
    omega

theorem pairSums_length :
    ∀ fs : List Nat, (pairSums fs).length = (fs.length + 1) / 2
  | [] => rfl
  | [_] => by simp [pairSums]
  | a :: b :: rest => by
    show ((a + b) :: pairSums rest).length = _
    simp only [List.length_cons, pairSums_length rest]
    omega

theorem pairSums_bound (w : Nat) (hw : 0 < w) :
    ∀ fs : List Nat, (∀ f ∈ fs, f < 2 ^ w) → ∀ f ∈ pairSums fs, f < 2 ^ (2 * w)
  | [], _, f, hf => by simp [pairSums] at hf
  | [a], hb, f, hf => by
    have ha : a < 2 ^ w := hb a (by simp)
    have hww : (2 : Nat) ^ w ≤ 2 ^ (2 * w) := Nat.pow_le_pow_right (by omega) (by omega)
    simp [pairSums] at hf
    omega
  | a :: b :: rest, hb, f, hf => by
    simp only [pairSums, List.mem_cons] at hf
    rcases hf with rfl | hf
    · have ha : a < 2 ^ w := hb a (by simp)
      have hbb : b < 2 ^ w := hb b (by simp)
      have h3 : (2 : Nat) ^ (2 * w) = 2 ^ w * 2 ^ w := by rw [two_mul, Nat.pow_add]
      have h4 : (2 : Nat) ≤ 2 ^ w := by
        calc (2 : Nat) = 2 ^ 1 := rfl
          _ ≤ 2 ^ w := Nat.pow_le_pow_right (by omega) hw
      have h5 : 2 ^ w * 2 ≤ 2 ^ w * 2 ^ w := Nat.mul_le_mul_left _ h4
      omega
    · exact pairSums_bound w hw rest (fun g hg => hb g (by simp [hg])) f hf

theorem pairSums_sum : ∀ fs : List Nat, (pairSums fs).sum = fs.sum
  | [] => rfl
  | [_] => rfl
  | a :: b :: rest => by
    show (a + b) + (pairSums rest).sum = a + (b + rest.sum)
    rw [pairSums_sum rest]
    omega

/-- One round of the magic-numbers loop merges adjacent fields by
addition. -/
theorem pop_round (w m : Nat) (hw : 0 < w) (h64 : 2 * w * m ≤ 64)
    (fs : List Nat) (hb : ∀ f ∈ fs, f < 2 ^ w) (hlen : fs.length = 2 * m) :
    (((fromFields w fs >>> w) &&& fieldMask w m)
      + (fromFields w fs &&& fieldMask w m)) % 2 ^ 64
      = fromFields (2 * w) (pairSums fs) := by
  cases fs with
  | nil => simp [fromFields_nil, pairSums]
  | cons f0 fs' =>
    have hf0 : f0 < 2 ^ w := hb f0 (by simp)
    have hlen' : (f0 :: fs').length ≤ 2 * m := by omega
    have hlen'' : fs'.length ≤ 2 * m := by
      simp only [List.length_cons] at hlen; omega
    have hshift : fromFields w (f0 :: fs') >>> w = fromFields w fs' :=
      fromFields_cons_shiftRight w f0 fs' hf0
    have h1 : fromFields w fs' &&& fieldMask w m = fromFields (2 * w) (everyOther fs') :=
      land_fieldMask w fs' m (fun g hg => hb g (by simp [hg])) hlen''
    have h2 : fromFields w (f0 :: fs') &&& fieldMask w m
        = fromFields (2 * w) (everyOther (f0 :: fs')) :=
      land_fieldMask w (f0 :: fs') m hb hlen'
    have hzl : (everyOther fs').length = (everyOther (f0 :: fs')).length := by
      rw [everyOther_length, everyOther_length]
      simp only [List.length_cons] at hlen ⊢
      omega
    have hzip : List.zipWith (· + ·) (everyOther fs') (everyOther (f0 :: fs'))
        = pairSums (f0 :: fs') := zip_everyOther_pairSums (f0 :: fs') m hlen
    rw [hshift, h1, h2, fromFields_add (2 * w) _ _ hzl, hzip]
    apply Nat.mod_eq_of_lt
    have hlt := fromFields_lt (2 * w) (pairSums (f0 :: fs'))
      (pairSums_bound w hw (f0 :: fs') hb)
    have hps : (pairSums (f0 :: fs')).length = m := by
      rw [pairSums_length, hlen]; omega
    rw [hps] at hlt
    calc fromFields (2 * w) (pairSums (f0 :: fs')) < 2 ^ (2 * w * m) := hlt
      _ ≤ 2 ^ 64 := Nat.pow_le_pow_right (by omega) h64

theorem fromFields_one_range :
    ∀ (n x : Nat), x < 2 ^ n →
      fromFields 1 ((List.range n).map (fun i => (x.testBit i).toNat)) = x
  | 0, x, hx => by
    have hx0 : x = 0 := by omega
    subst hx0
    rfl
  | n + 1, x, hx => by
    rw [List.range_succ_eq_map, List.map_cons, List.map_map, fromFields_cons]
    have comp : ((fun i => (x.testBit i).toNat) ∘ Nat.succ)
        = (fun i => ((x / 2).testBit i).toNat) := by
      funext i
      simp [Nat.testBit_succ]
    rw [comp]
    have hdiv : x / 2 < 2 ^ n := by
      have hp : (2 : Nat) ^ (n + 1) = 2 * 2 ^ n := by
        rw [Nat.pow_succ, Nat.mul_comm]
      omega
    rw [fromFields_one_range n (x / 2) hdiv]
    have h0 : (x.testBit 0).toNat = x % 2 := by
      rw [Nat.toNat_testBit]
      simp
    rw [h0, pow_one]
    omega

theorem bitsList_bound (x : Nat) : ∀ f ∈ bitsList x, f < 2 ^ 1 := by
  intro f hf
  simp only [bitsList, List.mem_map] at hf
  obtain ⟨i, _, rfl⟩ := hf
  cases x.testBit i <;> simp

theorem bitsList_length (x : Nat) : (bitsList x).length = 64 := by
  simp [bitsList]

theorem oneBits_le_64 (x : Nat) : oneBits x ≤ 64 := by
  unfold oneBits
  have h := List.sum_le_card_nsmul (bitsList x) 1 (by
    intro f hf
    simp only [bitsList, List.mem_map] at hf
    obtain ⟨i, _, rfl⟩ := hf
    cases x.testBit i <;> simp)
  simpa [bitsList_length] using h

theorem fromFields_singleton (w a : Nat) : fromFields w [a] = a := by
  simp [fromFields_cons, fromFields_nil]

/-- The six magic-numbers rounds of `pop_count` compute exactly the number
of set bits of a 64-bit word. -/
theorem pop_count_eq_oneBits (x : Nat) (hx : x < 2 ^ 64) :
    pop_count x = oneBits x := by
  have hrange : List.range 6 = [0, 1, 2, 3, 4, 5] := rfl
  unfold pop_count
  rw [hrange]
  simp only [List.foldl_cons, List.foldl_nil]
  -- field lists after each round
  set fs0 := bitsList x with hfs0
  set fs1 := pairSums fs0 with hfs1
  set fs2 := pairSums fs1 with hfs2
  set fs3 := pairSums fs2 with hfs3
  set fs4 := pairSums fs3 with hfs4
  set fs5 := pairSums fs4 with hfs5
  set fs6 := pairSums fs5 with hfs6
  have hb0 := bitsList_bound x
  have hb1 : ∀ f ∈ fs1, f < 2 ^ 2 := by
    have := pairSums_bound 1 (by omega) fs0 hb0
    simpa using this
  have hb2 : ∀ f ∈ fs2, f < 2 ^ 4 := by
    have := pairSums_bound 2 (by omega) fs1 hb1
    simpa using this
  have hb3 : ∀ f ∈ fs3, f < 2 ^ 8 := by
    have := pairSums_bound 4 (by omega) fs2 hb2
    simpa using this
  have hb4 : ∀ f ∈ fs4, f < 2 ^ 16 := by
    have := pairSums_bound 8 (by omega) fs3 hb3
    simpa using this
  have hb5 : ∀ f ∈ fs5, f < 2 ^ 32 := by
    have := pairSums_bound 16 (by omega) fs4 hb4
    simpa using this
  have hl0 : fs0.length = 64 := bitsList_length x
  have hl1 : fs1.length = 32 := by rw [hfs1, pairSums_length, hl0]
  have hl2 : fs2.length = 16 := by rw [hfs2, pairSums_length, hl1]
  have hl3 : fs3.length = 8 := by rw [hfs3, pairSums_length, hl2]
  have hl4 : fs4.length = 4 := by rw [hfs4, pairSums_length, hl3]
  have hl5 : fs5.length = 2 := by rw [hfs5, pairSums_length, hl4]
  have hl6 : fs6.length = 1 := by rw [hfs6, pairSums_length, hl5]
  have hx0 : fromFields 1 fs0 = x := fromFields_one_range 64 x hx
  have hm0 : popB.getD 0 0 = fieldMask 1 32 := by decide
  have hm1 : popB.getD 1 0 = fieldMask 2 16 := by decide
  have hm2 : popB.getD 2 0 = fieldMask 4 8 := by decide
  have hm3 : popB.getD 3 0 = fieldMask 8 4 := by decide
  have hm4 : popB.getD 4 0 = fieldMask 16 2 := by decide
  have hm5 : popB.getD 5 0 = fieldMask 32 1 := by decide
  have h1 : pop_step x 0 = fromFields 2 fs1 := by
    rw [pop_step, hm0, ← hx0]
    have := pop_round 1 32 (by omega) (by omega) fs0 hb0 (by omega)
    simpa using this
  have h2 : pop_step (fromFields 2 fs1) 1 = fromFields 4 fs2 := by
    rw [pop_step, hm1]
    have := pop_round 2 16 (by omega) (by omega) fs1 hb1 (by omega)
    simpa using this
  have h3 : pop_step (fromFields 4 fs2) 2 = fromFields 8 fs3 := by
    rw [pop_step, hm2]
    have := pop_round 4 8 (by omega) (by omega) fs2 hb2 (by omega)
    simpa using this
  have h4 : pop_step (fromFields 8 fs3) 3 = fromFields 16 fs4 := by
    rw [pop_step, hm3]
    have := pop_round 8 4 (by omega) (by omega) fs3 hb3 (by omega)
    simpa using this
  have h5 : pop_step (fromFields 16 fs4) 4 = fromFields 32 fs5 := by
    rw [pop_step, hm4]
    have := pop_round 16 2 (by omega) (by omega) fs4 hb4 (by omega)
    simpa using this
  have h6 : pop_step (fromFields 32 fs5) 5 = fromFields 64 fs6 := by
    rw [pop_step, hm5]
    have := pop_round 32 1 (by omega) (by omega) fs5 hb5 (by omega)
    simpa using this
  rw [h1, h2, h3, h4, h5, h6]
  obtain ⟨a, ha⟩ : ∃ a, fs6 = [a] := by
    cases h : fs6 with
    | nil => rw [h] at hl6; simp at hl6
    | cons a t =>
      cases t with
      | nil => exact ⟨a, rfl⟩
      | cons b t' => rw [h] at hl6; simp at hl6
  have hsum : a = oneBits x := by
    have : fs6.sum = fs0.sum := by
      rw [hfs6, pairSums_sum, hfs5, pairSums_sum, hfs4, pairSums_sum,
        hfs3, pairSums_sum, hfs2, pairSums_sum, hfs1, pairSums_sum]
    rw [ha] at this
    simpa [oneBits] using this
  rw [ha, fromFields_singleton, hsum]
  exact Nat.mod_eq_of_lt (by have := oneBits_le_64 x; omega)

/-- C8: for every 64-bit word, `pop_count` returns exactly the number of set
bits of the word — the divide-and-conquer mask-and-add loop computes an exact
population count, never an approximation. -/
theorem pop_count_exact (x : Nat) (hx : x < 2 ^ 64) : pop_count x = oneBits x :=
  pop_count_eq_oneBits x hx

theorem pop_count_exact_witness : pop_count 0xdeadbeef = oneBits 0xdeadbeef :=
  pop_count_exact 0xdeadbeef (by decide)

/-! ## The meta-rule selection -/

theorem shiftRight_and_one (x i : Nat) : (x >>> i) &&& 1 = (x.testBit i).toNat := by
  rw [Nat.and_one_is_mod, Nat.toNat_testBit, Nat.shiftRight_eq_div_pow]

set_option maxRecDepth 10000 in
set_option maxHeartbeats 1000000 in
/-- On a 3-bit density context the 8-pattern loop reduces to reading one bit
of the meta-rule byte. -/
theorem meta_fold_eq : ∀ rule < 256, ∀ pl < 2, ∀ pc < 2, ∀ pr < 2,
    meta_fold rule pl pc pr = ((rule >>> (4 * pl + 2 * pc + pr)) &&& 1) := by
  decide

/-- C3: `ca1d_meta_rule_apply` classifies each neighbouring word into a
binary density symbol that is 1 exactly when the word's (exact) population
count exceeds 32, feeds this 3-bit density context and the meta-rule byte to
the same 8-pattern lookup-and-or loop as the rule engine, obtains an index
in `[0,7]`, and returns the rule-set entry at that index. -/
theorem meta_rule_select_density (rules : List Nat) (meta cp c cn : Nat)
    (hmeta : meta < 2 ^ 8) (hcp : cp < 2 ^ 64) (hc : c < 2 ^ 64)
    (hcn : cn < 2 ^ 64) :
    ca1d_meta_rule_apply rules meta cp c cn
      = rules.getD (meta_fold meta (if 32 < oneBits cp then 1 else 0)
          (if 32 < oneBits c then 1 else 0)
          (if 32 < oneBits cn then 1 else 0)) 0
    ∧ meta_fold meta (if 32 < oneBits cp then 1 else 0)
        (if 32 < oneBits c then 1 else 0)
        (if 32 < oneBits cn then 1 else 0) ≤ 7 := by
  have ecp : (if 32 < pop_count cp then (1 : Nat) else 0)
      = (if 32 < oneBits cp then 1 else 0) := by
    rw [pop_count_eq_oneBits cp hcp]
  have ec : (if 32 < pop_count c then (1 : Nat) else 0)
      = (if 32 < oneBits c then 1 else 0) := by
    rw [pop_count_eq_oneBits c hc]
  have ecn : (if 32 < pop_count cn then (1 : Nat) else 0)
      = (if 32 < oneBits cn then 1 else 0) := by
    rw [pop_count_eq_oneBits cn hcn]
  constructor
  · unfold ca1d_meta_rule_apply
    rw [ecp, ec, ecn]
  · have hdl : (if 32 < oneBits cp then (1 : Nat) else 0) < 2 := by split <;> omega
    have hdc : (if 32 < oneBits c then (1 : Nat) else 0) < 2 := by split <;> omega
    have hdr : (if 32 < oneBits cn then (1 : Nat) else 0) < 2 := by split <;> omega
    rw [meta_fold_eq meta hmeta _ hdl _ hdc _ hdr]
    have := Nat.and_le_right (n := meta >>> (4 * (if 32 < oneBits cp then 1 else 0)
      + 2 * (if 32 < oneBits c then 1 else 0)
      + (if 32 < oneBits cn then 1 else 0))) (m := 1)
    omega

theorem meta_rule_select_density_witness :
    ca1d_meta_rule_apply [110, 30] 1 MASK64 0 0
      = [110, 30].getD (meta_fold 1 (if 32 < oneBits MASK64 then 1 else 0)
          (if 32 < oneBits 0 then 1 else 0) (if 32 < oneBits 0 then 1 else 0)) 0
    ∧ meta_fold 1 (if 32 < oneBits MASK64 then 1 else 0)
        (if 32 < oneBits 0 then 1 else 0) (if 32 < oneBits 0 then 1 else 0) ≤ 7 :=
  meta_rule_select_density [110, 30] 1 MASK64 0 0 (by decide) (by decide)
    (by decide) (by decide)

/-- C4: `ca1d_meta_rule_apply` returns `rules[b]` where `b` is bit
`4*pl + 2*pc + pr` of the meta-rule byte (`pl`, `pc`, `pr` the three density
symbols); the selection index is therefore always 0 or 1, so entries of the
rule list beyond index 1 are never consulted and the read of the 256-entry
rule array is always in bounds. -/
theorem meta_rule_select_bit (rules : List Nat) (meta cp c cn : Nat)
    (hmeta : meta < 2 ^ 8) :
    ca1d_meta_rule_apply rules meta cp c cn
      = rules.getD ((meta.testBit (4 * (if 32 < pop_count cp then 1 else 0)
          + 2 * (if 32 < pop_count c then 1 else 0)
          + (if 32 < pop_count cn then 1 else 0))).toNat) 0
    ∧ ((meta.testBit (4 * (if 32 < pop_count cp then 1 else 0)
          + 2 * (if 32 < pop_count c then 1 else 0)
          + (if 32 < pop_count cn then 1 else 0))).toNat) ≤ 1 := by
  have hdl : (if 32 < pop_count cp then (1 : Nat) else 0) < 2 := by split <;> omega
  have hdc : (if 32 < pop_count c then (1 : Nat) else 0) < 2 := by split <;> omega
  have hdr : (if 32 < pop_count cn then (1 : Nat) else 0) < 2 := by split <;> omega
  constructor
  · unfold ca1d_meta_rule_apply
    dsimp only
    rw [meta_fold_eq meta hmeta _ hdl _ hdc _ hdr, shiftRight_and_one]
  · cases meta.testBit (4 * (if 32 < pop_count cp then 1 else 0)
      + 2 * (if 32 < pop_count c then 1 else 0)
      + (if 32 < pop_count cn then 1 else 0)) <;> simp

theorem meta_rule_select_bit_witness :
    (ca1d_meta_rule_apply [110, 30, 7] 0b10000 MASK64 0 0
      = [110, 30, 7].getD ((Nat.testBit 0b10000
          (4 * (if 32 < pop_count MASK64 then 1 else 0)
          + 2 * (if 32 < pop_count 0 then 1 else 0)
          + (if 32 < pop_count 0 then 1 else 0))).toNat) 0)
    ∧ ((Nat.testBit 0b10000 (4 * (if 32 < pop_count MASK64 then 1 else 0)
          + 2 * (if 32 < pop_count 0 then 1 else 0)
          + (if 32 < pop_count 0 then 1 else 0))).toNat) ≤ 1 :=
  meta_rule_select_bit [110, 30, 7] 0b10000 MASK64 0 0 (by decide)

/-- C9: with a zero meta-rule byte, `ca1d_meta_rule_apply` returns
`rules[0]` for every neighbourhood, and the row update of the run
(`ca1d_step`) with `meta_rule = 0` is the non-meta path
`ca1d_rule_apply_row` for every current row and every configured rule
list. -/
theorem meta_rule_zero_degenerate (width rule_n : Nat) (rules : List Nat) :
    (∀ cp c cn : Nat, ca1d_meta_rule_apply rules 0 cp c cn = rules.getD 0 0)
    ∧ (∀ prev cur : List Nat, ca1d_step width rule_n 0 rules prev cur
        = ca1d_rule_apply_row width rule_n rules prev cur) := by
  constructor
  · intro cp c cn
    unfold ca1d_meta_rule_apply
    have hz : ∀ pl pc pr : Nat, meta_fold 0 pl pc pr = 0 := by
      intro pl pc pr
      have hrange : List.range 8 = [0, 1, 2, 3, 4, 5, 6, 7] := rfl
      simp [meta_fold, hrange]
    dsimp only
    rw [hz]
  · intro prev cur
    unfold ca1d_step
    simp

/-! ## Row access helpers -/

theorem row_get (width i : Nat) (f : Nat → Nat) (hi : i < width) :
    ((List.range width).map f).getD i 0 = f i := by
  have hlen : i < ((List.range width).map f).length := by simp [hi]
  rw [List.getD_eq_getElem?_getD, List.getElem?_eq_getElem hlen]
  simp

theorem zeroRow_getD (width i : Nat) : (zeroRow width).getD i 0 = 0 := by
  rw [zeroRow, List.getD_eq_getElem?_getD, List.getElem?_replicate]
  split <;> rfl

/-! ## C6: toroidal neighbour selection -/

/-- C6: in both row-update functions the neighbour words are chosen
toroidally: word `i` reads its left neighbour at `(i + width - 1) % width`
and its right neighbour at `(i + 1) % width`, so word 0's left neighbour is
word `width-1`, word `width-1`'s right neighbour is word 0, and for
`width = 1` the single word is its own left and right neighbour. -/
theorem toroidal_neighbors (width rule_n meta_rule : Nat) (rules : List Nat)
    (prev cur : List Nat) (hw : 1 ≤ width) (i : Nat) (hi : i < width) :
    (ca1d_rule_apply_row width rule_n rules prev cur).getD i 0
      = ca1d_rule_apply (rules.getD (i % rule_n) 0)
          (cur.getD ((i + width - 1) % width) 0) (cur.getD i 0)
          (cur.getD ((i + 1) % width) 0) (prev.getD i 0)
    ∧ (ca1d_meta_rule_apply_row width meta_rule rules prev cur).getD i 0
      = ca1d_rule_apply (ca1d_meta_rule_apply rules meta_rule
            (cur.getD ((i + width - 1) % width) 0) (cur.getD i 0)
            (cur.getD ((i + 1) % width) 0))
          (cur.getD ((i + width - 1) % width) 0) (cur.getD i 0)
          (cur.getD ((i + 1) % width) 0) (prev.getD i 0) := by
  have hleft : (i + width - 1) % width = if i = 0 then width - 1 else i - 1 := by
    by_cases h0 : i = 0
    · subst h0
      rw [if_pos rfl, Nat.zero_add]
      exact Nat.mod_eq_of_lt (by omega)
    · rw [if_neg h0]
      have he : i + width - 1 = (i - 1) + width := by omega
      rw [he, Nat.add_mod_right]
      exact Nat.mod_eq_of_lt (by omega)
  have hright : (i + 1) % width = if i = width - 1 then 0 else i + 1 := by
    by_cases hl : i = width - 1
    · rw [if_pos hl, show i + 1 = width from by omega, Nat.mod_self]
    · rw [if_neg hl]
      exact Nat.mod_eq_of_lt (by omega)
  constructor
  · unfold ca1d_rule_apply_row
    rw [row_get width i _ hi, hleft, hright]
    by_cases h0 : i = 0
    · subst h0
      rw [if_pos rfl, if_pos rfl, Nat.zero_mod]
      by_cases h1 : width = 1
      · subst h1
        norm_num
      · rw [if_neg (by omega : ¬(0 = width - 1))]
        have hmin : min 1 (width - 1) = 0 + 1 := by omega
        rw [hmin]
    · rw [if_neg h0, if_neg h0]
      by_cases hm : i < width - 1
      · rw [if_pos hm, if_neg (by omega)]
      · rw [if_neg hm, if_pos (by omega : i = width - 1)]
  · unfold ca1d_meta_rule_apply_row
    rw [row_get width i _ hi]
    dsimp only
    rw [hleft, hright]
    by_cases h0 : i = 0
    · subst h0
      rw [if_pos rfl, if_pos rfl]
      by_cases h1 : width = 1
      · subst h1
        norm_num
      · rw [if_neg (by omega : ¬(0 = width - 1))]
        have hmin : min 1 (width - 1) = 0 + 1 := by omega
        rw [hmin]
    · rw [if_neg h0, if_neg h0]
      by_cases hm : i < width - 1
      · rw [if_pos hm, if_neg (by omega)]
      · rw [if_neg hm, if_pos (by omega : i = width - 1)]

theorem toroidal_neighbors_witness :
    ((ca1d_rule_apply_row 2 1 [110] [0, 0] [1, 2]).getD 0 0
      = ca1d_rule_apply ([110].getD (0 % 1) 0)
          ([1, 2].getD ((0 + 2 - 1) % 2) 0) ([1, 2].getD 0 0)
          ([1, 2].getD ((0 + 1) % 2) 0) ([0, 0].getD 0 0))
    ∧ ((ca1d_meta_rule_apply_row 2 3 [110] [0, 0] [1, 2]).getD 0 0
      = ca1d_rule_apply (ca1d_meta_rule_apply [110] 3
            ([1, 2].getD ((0 + 2 - 1) % 2) 0) ([1, 2].getD 0 0)
            ([1, 2].getD ((0 + 1) % 2) 0))
          ([1, 2].getD ((0 + 2 - 1) % 2) 0) ([1, 2].getD 0 0)
          ([1, 2].getD ((0 + 1) % 2) 0) ([0, 0].getD 0 0)) :=
  toroidal_neighbors 2 1 3 [110] [0, 0] [1, 2] (by decide) 0 (by decide)

/-! ## Run-level lemmas -/

theorem ca1d_step_length (width rule_n meta_rule : Nat) (rules prev cur : List Nat) :
    (ca1d_step width rule_n meta_rule rules prev cur).length = width := by
  unfold ca1d_step ca1d_rule_apply_row ca1d_meta_rule_apply_row
  split <;> simp

theorem ca1d_row_length (width rule_n meta_rule : Nat) (rules : List Nat)
    (rev : Bool) (init : List Nat) (hinit : init.length = width) :
    ∀ g, (ca1d_row width rule_n meta_rule rules rev init g).length = width
  | 0 => hinit
  | 1 => ca1d_step_length _ _ _ _ _ _
  | _ + 2 => ca1d_step_length _ _ _ _ _ _

/-- `ca1d_rule_apply` is the zero-carry result xored with the carry word. -/
theorem ca1d_rule_apply_carry (r a b d p : Nat) :
    ca1d_rule_apply r a b d p = ca1d_rule_apply r a b d 0 ^^^ p := by
  unfold ca1d_rule_apply
  dsimp only
  rw [Nat.xor_zero]

theorem rule_row_carry (width rule_n : Nat) (rules prev cur : List Nat)
    (i : Nat) (hi : i < width) :
    (ca1d_rule_apply_row width rule_n rules prev cur).getD i 0
      = (ca1d_rule_apply_row width rule_n rules (zeroRow width) cur).getD i 0
        ^^^ prev.getD i 0 := by
  unfold ca1d_rule_apply_row
  rw [row_get width i _ hi, row_get width i _ hi]
  split_ifs with h0 hm
  · rw [h0, zeroRow_getD, ca1d_rule_apply_carry]
  · rw [zeroRow_getD, ca1d_rule_apply_carry]
  · rw [zeroRow_getD, ca1d_rule_apply_carry]

theorem meta_row_carry (width meta_rule : Nat) (rules prev cur : List Nat)
    (i : Nat) (hi : i < width) :
    (ca1d_meta_rule_apply_row width meta_rule rules prev cur).getD i 0
      = (ca1d_meta_rule_apply_row width meta_rule rules (zeroRow width) cur).getD i 0
        ^^^ prev.getD i 0 := by
  unfold ca1d_meta_rule_apply_row
  rw [row_get width i _ hi, row_get width i _ hi]
  dsimp only
  split_ifs with h0 hm
  · rw [h0, zeroRow_getD, ca1d_rule_apply_carry]
  · rw [zeroRow_getD, ca1d_rule_apply_carry]
  · rw [zeroRow_getD, ca1d_rule_apply_carry]

theorem ca1d_step_carry (width rule_n meta_rule : Nat) (rules prev cur : List Nat)
    (i : Nat) (hi : i < width) :
    (ca1d_step width rule_n meta_rule rules prev cur).getD i 0
      = (ca1d_step width rule_n meta_rule rules (zeroRow width) cur).getD i 0
        ^^^ prev.getD i 0 := by
  unfold ca1d_step
  split
  · exact meta_row_carry width meta_rule rules prev cur i hi
  · exact rule_row_carry width rule_n rules prev cur i hi

/-- Applying the step a second time with the produced row as carry undoes
the carry: the per-word xor is involutive. -/
theorem ca1d_step_invol (width rule_n meta_rule : Nat) (rules : List Nat)
    (p c : List Nat) (hp : p.length = width) :
    ca1d_step width rule_n meta_rule rules
      (ca1d_step width rule_n meta_rule rules p c) c = p := by
  have hget : ∀ (l : List Nat) (i : Nat) (h : i < l.length), l.getD i 0 = l[i] :=
    fun l i h => by
      rw [List.getD_eq_getElem?_getD, List.getElem?_eq_getElem h]
      rfl
  apply List.ext_getElem
  · rw [ca1d_step_length, hp]
  · intro i h1 h2
    have hi : i < width := by rw [ca1d_step_length] at h1; exact h1
    rw [← hget _ i h1, ← hget _ i h2,
      ca1d_step_carry width rule_n meta_rule rules _ c i hi,
      ca1d_step_carry width rule_n meta_rule rules p c i hi,
      ← Nat.xor_assoc, Nat.xor_self, Nat.zero_xor]

/-- Entry `j` of the loop tail, when the loop is entered at generation
`k ≥ 1` with the matching `(prev, cur)` pair. -/
theorem run_from_getD (width rule_n meta_rule : Nat) (rules : List Nat)
    (rev : Bool) (init : List Nat) :
    ∀ (n k j : Nat), 1 ≤ k → j < n →
      (ca1d_run_from width rule_n meta_rule rules rev n
          (if rev then ca1d_row width rule_n meta_rule rules rev init (k - 1)
           else zeroRow width)
          (ca1d_row width rule_n meta_rule rules rev init k)).getD j []
        = ca1d_row width rule_n meta_rule rules rev init (k + 1 + j)
  | 0, k, j, _, hj => absurd hj (by omega)
  | n + 1, k, j, hk, hj => by
    have hnext : ca1d_step width rule_n meta_rule rules
        (if rev then ca1d_row width rule_n meta_rule rules rev init (k - 1)
         else zeroRow width)
        (ca1d_row width rule_n meta_rule rules rev init k)
        = ca1d_row width rule_n meta_rule rules rev init (k + 1) := by
      have hk2 : k + 1 = (k - 1) + 2 := by omega
      have hk1 : (k - 1) + 1 = k := by omega
      rw [hk2, ca1d_row, hk1]
    rw [ca1d_run_from]
    rw [hnext]
    cases j with
    | zero =>
      rw [List.getD_cons_zero]
    | succ j' =>
      rw [List.getD_cons_succ]
      have ih := run_from_getD width rule_n meta_rule rules rev init n (k + 1) j'
        (by omega) (by omega)
      rw [show k + 1 + (j' + 1) = (k + 1) + 1 + j' from by omega]
      exact ih

/-- Row `g` of the matrix produced by `ca1d_run` is row `g` of the
recurrence `ca1d_row`. -/
theorem run_getD (width height rule_n meta_rule : Nat) (rules : List Nat)
    (rev : Bool) (init : List Nat) (g : Nat) (hg : g < height) :
    (ca1d_run width height rule_n meta_rule rules rev init).getD g []
      = ca1d_row width rule_n meta_rule rules rev init g := by
  unfold ca1d_run
  cases g with
  | zero =>
    rw [List.getD_cons_zero]
    rfl
  | succ g' =>
    rw [List.getD_cons_succ]
    obtain ⟨n', hn⟩ : ∃ n', height - 1 = n' + 1 := ⟨height - 2, by omega⟩
    rw [hn, ca1d_run_from]
    have hnext : ca1d_step width rule_n meta_rule rules (zeroRow width) init
        = ca1d_row width rule_n meta_rule rules rev init 1 := rfl
    rw [hnext]
    cases g' with
    | zero => rw [List.getD_cons_zero]
    | succ g'' =>
      rw [List.getD_cons_succ]
      have ih := run_from_getD width rule_n meta_rule rules rev init n' 1 g''
        (Nat.le_refl 1) (by omega)
      rw [show g'' + 1 + 1 = 1 + 1 + g'' from by omega]
      exact ih

/-- C7: the carry row used by `ca1d_run` to compute row 1 is the all-zero
row regardless of the `reversible` flag, and for `g ≥ 2` the carry row is
row `g-2` when `reversible` is set and the all-zero row otherwise. -/
theorem run_carry_selection (width height rule_n meta_rule : Nat)
    (rules init : List Nat) (rev : Bool) (g : Nat) (h1 : 1 ≤ g) (h2 : g < height) :
    (ca1d_run width height rule_n meta_rule rules rev init).getD g []
      = ca1d_step width rule_n meta_rule rules
          (if rev = true ∧ 2 ≤ g
           then (ca1d_run width height rule_n meta_rule rules rev init).getD (g - 2) []
           else zeroRow width)
          ((ca1d_run width height rule_n meta_rule rules rev init).getD (g - 1) []) := by
  rw [run_getD width height rule_n meta_rule rules rev init g h2,
    run_getD width height rule_n meta_rule rules rev init (g - 1) (by omega)]
  by_cases hg2 : 2 ≤ g
  · rw [run_getD width height rule_n meta_rule rules rev init (g - 2) (by omega)]
    obtain ⟨g', rfl⟩ : ∃ g', g = g' + 2 := ⟨g - 2, by omega⟩
    have e2 : g' + 2 - 2 = g' := by omega
    have e1 : g' + 2 - 1 = g' + 1 := by omega
    rw [e2, e1, ca1d_row]
    have hcond : (rev = true ∧ 2 ≤ g' + 2) ↔ (rev = true) := by
      constructor
      · exact fun h => h.1
      · exact fun h => ⟨h, by omega⟩
    cases rev
    · rw [if_neg (by simp), if_neg (by simp [hcond])]
    · rw [if_pos rfl, if_pos (hcond.mpr rfl)]
  · have hg1 : g = 1 := by omega
    subst hg1
    rw [if_neg (by omega : ¬(rev = true ∧ 2 ≤ 1))]
    rfl

theorem run_carry_selection_witness :
    (ca1d_run 1 4 1 0 [110] true [1]).getD 3 []
      = ca1d_step 1 1 0 [110]
          (if true = true ∧ 2 ≤ 3
           then (ca1d_run 1 4 1 0 [110] true [1]).getD 1 []
           else zeroRow 1)
          ((ca1d_run 1 4 1 0 [110] true [1]).getD 2 []) :=
  run_carry_selection 1 4 1 0 [110] [1] true 3 (by decide) (by decide)

/-- C2: in a reversible run, re-applying the step that produced row `g`
with row `g-1` as the centre row and row `g` as the carry row reconstructs
row `g-2` exactly — the xor-based step is an involution. -/
theorem reversible_roundtrip (width height rule_n meta_rule : Nat)
    (rules init : List Nat) (hinit : init.length = width)
    (g : Nat) (h2 : 2 ≤ g) (hg : g < height) :
    ca1d_step width rule_n meta_rule rules
        ((ca1d_run width height rule_n meta_rule rules true init).getD g [])
        ((ca1d_run width height rule_n meta_rule rules true init).getD (g - 1) [])
      = (ca1d_run width height rule_n meta_rule rules true init).getD (g - 2) [] := by
  rw [run_getD width height rule_n meta_rule rules true init g hg,
    run_getD width height rule_n meta_rule rules true init (g - 1) (by omega),
    run_getD width height rule_n meta_rule rules true init (g - 2) (by omega)]
  obtain ⟨g', rfl⟩ : ∃ g', g = g' + 2 := ⟨g - 2, by omega⟩
  have e2 : g' + 2 - 2 = g' := by omega
  have e1 : g' + 2 - 1 = g' + 1 := by omega
  rw [e2, e1]
  have hrow : ca1d_row width rule_n meta_rule rules true init (g' + 2)
      = ca1d_step width rule_n meta_rule rules
          (ca1d_row width rule_n meta_rule rules true init g')
          (ca1d_row width rule_n meta_rule rules true init (g' + 1)) := by
    rw [ca1d_row, if_pos rfl]
  rw [hrow]
  exact ca1d_step_invol width rule_n meta_rule rules _ _
    (ca1d_row_length width rule_n meta_rule rules true init hinit g')

theorem reversible_roundtrip_witness :
    ca1d_step 1 1 0 [110]
        ((ca1d_run 1 5 1 0 [110] true [1]).getD 3 [])
        ((ca1d_run 1 5 1 0 [110] true [1]).getD 2 [])
      = (ca1d_run 1 5 1 0 [110] true [1]).getD 1 [] :=
  reversible_roundtrip 1 5 1 0 [110] [1] (by decide) 3 (by decide) (by decide)

/-! ## C10: early termination of the rule-string parser -/

theorem parse_loop_eq_consumed :
    ∀ (s : List Char) (rules : List Nat) (acc indx : Nat),
      parse_loop s rules acc indx = parse_loop (consumedInput acc s) rules acc indx
  | [], _, _, _ => rfl
  | ch :: rest, rules, acc, indx => by
    rw [parse_loop, consumedInput]
    by_cases hd : isDigitC ch
    · rw [if_pos hd, if_pos hd]
      by_cases hov : 25 < acc
      · rw [if_pos hov, if_pos hov]
        rfl
      · rw [if_neg hov, if_neg hov, parse_loop, if_pos hd, if_neg hov]
        exact parse_loop_eq_consumed rest rules _ indx
    · rw [if_neg hd, if_neg hd]
      by_cases hcs : ch = ',' ∨ ch = ';'
      · rw [if_pos hcs, if_pos hcs, parse_loop, if_neg hd, if_pos hcs]
        exact parse_loop_eq_consumed rest _ 0 _
      · rw [if_neg hcs, if_neg hcs]
        by_cases hsp : ch = ' '
        · rw [if_pos hsp, if_pos hsp, parse_loop, if_neg hd, if_neg hcs, if_pos hsp]
          exact parse_loop_eq_consumed rest rules acc indx
        · rw [if_neg hsp, if_neg hsp, parse_loop, if_neg hd, if_neg hcs, if_neg hsp]

theorem consumedInput_le :
    ∀ (acc : Nat) (s : List Char), ∃ t, consumedInput acc s ++ t = s
  | _, [] => ⟨[], rfl⟩
  | acc, ch :: rest => by
    rw [consumedInput]
    by_cases hd : isDigitC ch
    · rw [if_pos hd]
      by_cases hov : 25 < acc
      · rw [if_pos hov]
        exact ⟨ch :: rest, rfl⟩
      · rw [if_neg hov]
        obtain ⟨t, ht⟩ := consumedInput_le ((acc * 10 + (ch.toNat - '0'.toNat)) % 2 ^ 8) rest
        exact ⟨t, by rw [List.cons_append, ht]⟩
    · rw [if_neg hd]
      by_cases hcs : ch = ',' ∨ ch = ';'
      · rw [if_pos hcs]
        obtain ⟨t, ht⟩ := consumedInput_le 0 rest
        exact ⟨t, by rw [List.cons_append, ht]⟩
      · rw [if_neg hcs]
        by_cases hsp : ch = ' '
        · rw [if_pos hsp]
          obtain ⟨t, ht⟩ := consumedInput_le acc rest
          exact ⟨t, by rw [List.cons_append, ht]⟩
        · rw [if_neg hsp]
          exact ⟨rest, rfl⟩

/-- C10: `parse_rule_nums` stops at the first character that is not a digit,
comma, semicolon or space, and stops early when a digit arrives while the
accumulator already exceeds 25; everything after the stopping point is
silently discarded — the result is a function of the consumed portion
(computed by `consumedInput`, which scans up to and including the stopping
character), and that portion is a prefix of the input string. -/
theorem parse_rule_nums_stops_early (s : List Char) (rules : List Nat)
    (rule_n : Nat) :
    parse_rule_nums s rules rule_n
      = parse_rule_nums (consumedInput 0 s) rules rule_n
    ∧ ∃ t, consumedInput 0 s ++ t = s := by
  constructor
  · unfold parse_rule_nums
    rw [parse_loop_eq_consumed]
  · exact consumedInput_le 0 s

end Automata
